import Mathlib

/-!
Verification of the tao-trade simulation engine
(`taotrade/models/subnet.py`, `account.py`, `transaction.py`,
`taotrade/models/subtensor.py`) against its natural-language specification.

The Python code is shallowly embedded: floats become exact rationals (`ℚ`),
Python dicts become insertion-ordered association lists, and the mutable
classes become pure state-passing functions.  Where the specification speaks
about floating-point tolerance, the corresponding theorem is proved exactly
over `ℚ`.
-/

namespace TaoTrade

/-- Embeds `Subnet` dataclass from `taotrade/models/subnet.py` (field order as in
the source).  `k` is a stored field, set by `__post_init__` (see `mkSubnet`)
and re-set only by `inject`. -/
structure Subnet where
  id : ℤ
  tao_in : ℚ
  alpha_in : ℚ
  alpha_out : ℚ
  is_root : Bool
  k : ℚ
  deriving DecidableEq

/-- Embeds `Subnet.__post_init__`: `k = tao_in * alpha_in` for non-root subnets and
`0` for the root subnet. -/
def mkSubnet (i : ℤ) (tao_in alpha_in alpha_out : ℚ) (root : Bool) : Subnet :=
  { id := i, tao_in := tao_in, alpha_in := alpha_in, alpha_out := alpha_out,
    is_root := root, k := if root then 0 else tao_in * alpha_in }

/-- Embeds `Subnet.alpha_price`: `1.0` for the root subnet or when `alpha_in == 0`,
otherwise `tao_in / alpha_in`. -/
def Subnet.alpha_price (s : Subnet) : ℚ :=
  if s.is_root ∨ s.alpha_in = 0 then 1 else s.tao_in / s.alpha_in

/-- Embeds `Subnet.weight`: `alpha_amount` for the root subnet; otherwise `0` if
`alpha_out == 0`, else `(alpha_amount / alpha_out) * tao_in`. -/
def Subnet.weight (s : Subnet) (alpha_amount : ℚ) : ℚ :=
  if s.is_root then alpha_amount
  else if s.alpha_out = 0 then 0 else alpha_amount / s.alpha_out * s.tao_in

/-- Embeds `Subnet.stake`: returns the updated subnet together with `alpha_bought`
(the Python method mutates `self` and returns `alpha_bought`). -/
def Subnet.stake (s : Subnet) (tao_amount : ℚ) : Subnet × ℚ :=
  if s.is_root then ({ s with alpha_out := s.alpha_out + tao_amount }, tao_amount)
  else
    let new_tao_in := s.tao_in + tao_amount
    let new_alpha_in := s.k / new_tao_in
    let alpha_bought := s.alpha_in - new_alpha_in
    ({ s with alpha_out := s.alpha_out + alpha_bought,
              alpha_in := new_alpha_in, tao_in := new_tao_in }, alpha_bought)

/-- Embeds `Subnet.unstake`: returns the updated subnet together with `tao_bought`. -/
def Subnet.unstake (s : Subnet) (alpha_amount : ℚ) : Subnet × ℚ :=
  if s.is_root then ({ s with alpha_out := s.alpha_out - alpha_amount }, alpha_amount)
  else
    let new_alpha_in := s.alpha_in + alpha_amount
    let new_tao_in := s.k / new_alpha_in
    let tao_bought := s.tao_in - new_tao_in
    ({ s with alpha_out := s.alpha_out - alpha_amount,
              alpha_in := new_alpha_in, tao_in := new_tao_in }, tao_bought)

/-- Embeds `Subnet.inject`: adds reserves directly and recomputes
`k = tao_in * alpha_in` (the parameter called `alpha_out` in the source is
renamed `alpha_out_delta` here to avoid shadowing the field). -/
def Subnet.inject (s : Subnet) (tao_amount alpha_amount alpha_out_delta : ℚ) : Subnet :=
  let new_tao_in := s.tao_in + tao_amount
  let new_alpha_in := s.alpha_in + alpha_amount
  { s with tao_in := new_tao_in, alpha_in := new_alpha_in,
           alpha_out := s.alpha_out + alpha_out_delta,
           k := new_tao_in * new_alpha_in }

/-- A stake or unstake call on a pool, with its amount argument. -/
inductive PoolOp where
  | stakeOp (x : ℚ)
  | unstakeOp (x : ℚ)
  deriving DecidableEq

/-- Apply a sequence of `stake`/`unstake` calls (no `inject`), discarding the
returned amounts. -/
def applyOps : Subnet → List PoolOp → Subnet
  | s, [] => s
  | s, PoolOp.stakeOp x :: ops => applyOps (s.stake x).1 ops
  | s, PoolOp.unstakeOp x :: ops => applyOps (s.unstake x).1 ops

/-- Validity of an op sequence: stake amounts are non-negative, and each
unstake keeps `alpha_in` positive (evaluated against the evolving state). -/
def validOps : Subnet → List PoolOp → Bool
  | _, [] => true
  | s, PoolOp.stakeOp x :: ops => decide (0 ≤ x) && validOps (s.stake x).1 ops
  | s, PoolOp.unstakeOp x :: ops =>
      decide (0 < s.alpha_in + x) && validOps (s.unstake x).1 ops

lemma stake_step (s : Subnet) (x : ℚ) (hr : s.is_root = false)
    (ht : 0 < s.tao_in) (ha : 0 < s.alpha_in)
    (hk : s.k = s.tao_in * s.alpha_in) (hx : 0 ≤ x) :
    (s.stake x).1.is_root = false ∧ (s.stake x).1.k = s.k ∧
      0 < (s.stake x).1.tao_in ∧ 0 < (s.stake x).1.alpha_in ∧
      (s.stake x).1.k = (s.stake x).1.tao_in * (s.stake x).1.alpha_in := by
  have htx : 0 < s.tao_in + x := by linarith
  simp only [Subnet.stake, hr, Bool.false_eq_true, if_false]
  refine ⟨trivial, trivial, htx, ?_, ?_⟩
  · exact div_pos (by rw [hk]; positivity) htx
  · field_simp

lemma unstake_step (s : Subnet) (x : ℚ) (hr : s.is_root = false)
    (ht : 0 < s.tao_in) (ha : 0 < s.alpha_in)
    (hk : s.k = s.tao_in * s.alpha_in) (hx : 0 < s.alpha_in + x) :
    (s.unstake x).1.is_root = false ∧ (s.unstake x).1.k = s.k ∧
      0 < (s.unstake x).1.tao_in ∧ 0 < (s.unstake x).1.alpha_in ∧
      (s.unstake x).1.k = (s.unstake x).1.tao_in * (s.unstake x).1.alpha_in := by
  simp only [Subnet.unstake, hr, Bool.false_eq_true, if_false]
  refine ⟨trivial, trivial, ?_, hx, ?_⟩
  · exact div_pos (by rw [hk]; positivity) hx
  · field_simp

lemma applyOps_invariant (ops : List PoolOp) :
    ∀ s : Subnet, s.is_root = false → 0 < s.tao_in → 0 < s.alpha_in →
      s.k = s.tao_in * s.alpha_in → validOps s ops = true →
      (applyOps s ops).k = s.k ∧
        (applyOps s ops).tao_in * (applyOps s ops).alpha_in = s.k := by
  induction ops with
  | nil =>
      intro s _ _ _ hk _
      exact ⟨rfl, hk.symm⟩
  | cons op ops ih =>
      intro s hr ht ha hk hv
      cases op with
      | stakeOp x =>
          simp only [validOps, Bool.and_eq_true, decide_eq_true_eq] at hv
          obtain ⟨hx, hv⟩ := hv
          obtain ⟨h1, h2, h3, h4, h5⟩ := stake_step s x hr ht ha hk hx
          have := ih (s.stake x).1 h1 h3 h4 h5 hv
          simp only [applyOps]
          exact ⟨by rw [this.1, h2], by rw [this.2, h2]⟩
      | unstakeOp x =>
          simp only [validOps, Bool.and_eq_true, decide_eq_true_eq] at hv
          obtain ⟨hx, hv⟩ := hv
          obtain ⟨h1, h2, h3, h4, h5⟩ := unstake_step s x hr ht ha hk hx
          have := ih (s.unstake x).1 h1 h3 h4 h5 hv
          simp only [applyOps]
          exact ⟨by rw [this.1, h2], by rw [this.2, h2]⟩

/-- C1.  Constant-product invariant: on a non-root pool with
`k = tao_in * alpha_in`, `tao_in > 0`, `alpha_in > 0`, any valid sequence of
`stake` (non-negative tao) and `unstake` (keeping `alpha_in` positive) calls
with no intervening `inject` leaves `tao_in * alpha_in` equal to `k`
(exactly, over `ℚ`); moreover neither `stake` nor `unstake` ever changes the
field `k` itself (on any pool, root or not). -/
theorem constant_product_invariant :
    (∀ (s : Subnet) (ops : List PoolOp), s.is_root = false →
        0 < s.tao_in → 0 < s.alpha_in → s.k = s.tao_in * s.alpha_in →
        validOps s ops = true →
        (applyOps s ops).k = s.k ∧
          (applyOps s ops).tao_in * (applyOps s ops).alpha_in = s.k) ∧
    (∀ (s : Subnet) (x : ℚ), (s.stake x).1.k = s.k ∧ (s.unstake x).1.k = s.k) := by
  constructor
  · intro s ops hr ht ha hk hv
    exact applyOps_invariant ops s hr ht ha hk hv
  · intro s x
    constructor
    · by_cases hr : s.is_root <;> simp [Subnet.stake, hr]
    · by_cases hr : s.is_root <;> simp [Subnet.unstake, hr]

/-- Concrete pool for the C1 witness: `(tao_in, alpha_in) = (4, 1)`, `k = 4`. -/
def sW1 : Subnet := mkSubnet 1 4 1 0 false

/-- Concrete op sequence for the C1 witness. -/
def opsW : List PoolOp := [PoolOp.stakeOp 1, PoolOp.unstakeOp 2]

/-- C1 witness: `sW1` run through `stake 1` then `unstake 2`. -/
theorem constant_product_invariant_witness :
    (sW1.is_root = false ∧ 0 < sW1.tao_in ∧ 0 < sW1.alpha_in ∧
      sW1.k = sW1.tao_in * sW1.alpha_in ∧ validOps sW1 opsW = true) ∧
    ((applyOps sW1 opsW).k = sW1.k ∧
      (applyOps sW1 opsW).tao_in * (applyOps sW1 opsW).alpha_in = sW1.k) :=
  ⟨⟨rfl, by norm_num [sW1, mkSubnet], by norm_num [sW1, mkSubnet],
      by norm_num [sW1, mkSubnet],
      by norm_num [sW1, opsW, mkSubnet, validOps, Subnet.stake, Subnet.unstake]⟩,
    constant_product_invariant.1 sW1 opsW rfl
      (by norm_num [sW1, mkSubnet]) (by norm_num [sW1, mkSubnet])
      (by norm_num [sW1, mkSubnet])
      (by norm_num [sW1, opsW, mkSubnet, validOps, Subnet.stake, Subnet.unstake])⟩

/-- C3.  Round trip: on a non-root pool with positive reserves and
`k = tao_in * alpha_in`, `stake x` (with `x ≥ 0`) immediately followed by
`unstake` of the returned `alpha_bought` returns `tao_bought = x` and
restores `tao_in` and `alpha_in` exactly; on the root pool
`unstake (stake x) = x` and `alpha_out` is restored, for all `x ≥ 0`. -/
theorem stake_unstake_round_trip :
    (∀ (s : Subnet) (x : ℚ), s.is_root = false → 0 < s.tao_in →
        0 < s.alpha_in → s.k = s.tao_in * s.alpha_in → 0 ≤ x →
        ((s.stake x).1.unstake (s.stake x).2).2 = x ∧
          ((s.stake x).1.unstake (s.stake x).2).1.tao_in = s.tao_in ∧
          ((s.stake x).1.unstake (s.stake x).2).1.alpha_in = s.alpha_in) ∧
    (∀ (s : Subnet) (x : ℚ), s.is_root = true → 0 ≤ x →
        ((s.stake x).1.unstake (s.stake x).2).2 = x ∧
          ((s.stake x).1.unstake (s.stake x).2).1.alpha_out = s.alpha_out) := by
  constructor
  · intro s x hr ht ha hk hx
    have htx : 0 < s.tao_in + x := by linarith
    have htx' : s.tao_in + x ≠ 0 := ne_of_gt htx
    have ha' : s.alpha_in ≠ 0 := ne_of_gt ha
    simp only [Subnet.stake, Subnet.unstake, hr, Bool.false_eq_true, if_false]
    have hsum : s.k / (s.tao_in + x) + (s.alpha_in - s.k / (s.tao_in + x)) =
        s.alpha_in := by ring
    rw [hsum]
    have hka : s.k / s.alpha_in = s.tao_in := by
      rw [hk, mul_div_assoc, div_self ha', mul_one]
    refine ⟨by rw [hka]; ring, by rw [hka], rfl⟩
  · intro s x hr _
    simp only [Subnet.stake, Subnet.unstake, hr, if_true]
    exact ⟨trivial, by ring⟩

/-- Concrete non-root pool for the C3 witness (the spec scenario pool
`(tao_in, alpha_in) = (1, 1)`). -/
def sW3 : Subnet := mkSubnet 1 1 1 0 false

/-- Concrete root pool for the C3 witness. -/
def sW3r : Subnet := mkSubnet 0 0 0 0 true

/-- C3 witness: `sW3` staked with `x = 100`, and the root pool `sW3r` with
`x = 5`. -/
theorem stake_unstake_round_trip_witness :
    ((sW3.is_root = false ∧ 0 < sW3.tao_in ∧ 0 < sW3.alpha_in ∧
        sW3.k = sW3.tao_in * sW3.alpha_in ∧ (0:ℚ) ≤ 100) ∧
      ((sW3.stake 100).1.unstake (sW3.stake 100).2).2 = 100 ∧
        ((sW3.stake 100).1.unstake (sW3.stake 100).2).1.tao_in = sW3.tao_in ∧
        ((sW3.stake 100).1.unstake (sW3.stake 100).2).1.alpha_in = sW3.alpha_in) ∧
    (sW3r.is_root = true ∧ (0:ℚ) ≤ 5) ∧
      ((sW3r.stake 5).1.unstake (sW3r.stake 5).2).2 = 5 ∧
        ((sW3r.stake 5).1.unstake (sW3r.stake 5).2).1.alpha_out = sW3r.alpha_out :=
  ⟨⟨⟨rfl, by norm_num [sW3, mkSubnet], by norm_num [sW3, mkSubnet],
        by norm_num [sW3, mkSubnet], by norm_num⟩,
      stake_unstake_round_trip.1 sW3 100 rfl
        (by norm_num [sW3, mkSubnet]) (by norm_num [sW3, mkSubnet])
        (by norm_num [sW3, mkSubnet]) (by norm_num)⟩,
    ⟨rfl, by norm_num⟩,
    stake_unstake_round_trip.2 sW3r 5 rfl (by norm_num)⟩

/-! ## Accounts, transactions and the network -/

/-- Insertion-ordered association list standing in for a Python dict keyed
by `int` with `float` values. -/
abbrev StakeMap := List (ℤ × ℚ)

/-- Embeds `d.get(key, dflt)` on a Python dict. -/
def alGetD : StakeMap → ℤ → ℚ → ℚ
  | [], _, dflt => dflt
  | p :: ps, key, dflt => if p.1 = key then p.2 else alGetD ps key dflt

/-- Embeds `key in d` on a Python dict. -/
def alHasKey : StakeMap → ℤ → Bool
  | [], _ => false
  | p :: ps, key => p.1 == key || alHasKey ps key

/-- Embeds `d[key] = v` on a Python dict: update in place when the key exists,
append otherwise. -/
def alSet : StakeMap → ℤ → ℚ → StakeMap
  | [], key, v => [(key, v)]
  | p :: ps, key, v => if p.1 = key then (key, v) :: ps else p :: alSet ps key v

/-- Embeds `Account` dataclass from `taotrade/models/account.py`.  The optional
`strategy` field is never read by the engine and is not modelled. -/
structure Account where
  id : ℤ
  free_balance : ℚ
  registered_subnets : List ℤ
  alpha_stakes : StakeMap
  deriving DecidableEq

/-- Amount field of a transaction.  `Subtensor._parse_amount` works on the
strings `'all'`, `'50%'`, `'123'`; following the spec design note the string
formats are embedded as this tagged variant, resolved against an available
total by `parseAmount`. -/
inductive TxAmount where
  | all
  | pct (p : ℚ)
  | lit (v : ℚ)
  deriving DecidableEq

/-- Embeds `Subtensor._parse_amount`: `'all'` returns the total, a percentage
returns `total * p / 100`, a literal returns its value. -/
def parseAmount : TxAmount → ℚ → ℚ
  | TxAmount.all, total => total
  | TxAmount.pct p, total => total * p / 100
  | TxAmount.lit v, _ => v

/-- Embeds `Transaction` dataclass from `taotrade/models/transaction.py`. -/
structure Transaction where
  block : ℤ
  account_id : ℤ
  subnet_id : ℤ
  action : String
  amount : TxAmount
  deriving DecidableEq

/-- Embeds `Subtensor` state from `taotrade/models/subtensor.py`.  The transaction
schedule (`transaction_blocks`) and the `injection_range` pair (only read by
a commented-out block of `_process_block_step`) are not part of the
per-block state the claims are about and are not modelled. -/
structure Subtensor where
  subnets : List Subnet
  accounts : List Account
  tao_supply : ℚ
  global_split : ℚ
  balanced : Bool
  initial_root_weight : ℚ
  root_weight : ℚ
  blocks : ℤ
  log_interval : ℤ
  deriving DecidableEq

/-! ## Emission (`Subtensor._calculate_emission`) -/

/-- The non-root subnets, in dict iteration order. -/
def nonRootSubnets (net : Subtensor) : List Subnet :=
  net.subnets.filter (fun s => !s.is_root)

/-- The dict `{s.id: s.tao_in for s in subnets if not s.is_root}`. -/
def emissionPairs (net : Subtensor) : StakeMap :=
  (nonRootSubnets net).map (fun s => (s.id, s.tao_in))

/-- Embeds `total = sum(emission.values())`. -/
def emissionTotal (net : Subtensor) : ℚ :=
  ((emissionPairs net).map (fun p => p.2)).sum

/-- Embeds `Subtensor._calculate_emission`: each non-root subnet's share of total
non-root `tao_in` (`0` when the total is `0`, per `e / total if total else
0.0`). -/
def calculateEmission (net : Subtensor) : StakeMap :=
  (emissionPairs net).map (fun p =>
    (p.1, if emissionTotal net = 0 then 0 else p.2 / emissionTotal net))

lemma sum_map_add {α : Type} (l : List α) (f g : α → ℚ) :
    (l.map (fun x => f x + g x)).sum = (l.map f).sum + (l.map g).sum := by
  induction l with
  | nil => simp
  | cons a l ih => simp only [List.map_cons, List.sum_cons, ih]; ring

lemma sum_map_div {α : Type} (l : List α) (f : α → ℚ) (t : ℚ) :
    (l.map (fun x => f x / t)).sum = (l.map f).sum / t := by
  induction l with
  | nil => simp
  | cons a l ih => simp only [List.map_cons, List.sum_cons, ih, add_div]

lemma emissionPairs_nonneg (net : Subtensor)
    (h : ∀ s ∈ net.subnets, s.is_root = false → 0 ≤ s.tao_in) :
    ∀ q ∈ emissionPairs net, 0 ≤ q.2 := by
  intro q hq
  obtain ⟨s, hs, rfl⟩ := List.mem_map.1 hq
  obtain ⟨hmem, hroot⟩ := List.mem_filter.1 hs
  exact h s hmem (by simpa using hroot)

/-- C10.  Emission postcondition: with all non-root `tao_in ≥ 0`, the shares
are keyed by exactly the non-root subnets, each share lies in `[0, 1]`, the
shares sum to exactly `1` when the total non-root `tao_in` is positive, and
every share is `0` when the total is `0`. -/
theorem emission_shares_spec (net : Subtensor)
    (h : ∀ s ∈ net.subnets, s.is_root = false → 0 ≤ s.tao_in) :
    (calculateEmission net).map (fun p => p.1) =
        (nonRootSubnets net).map (fun s => s.id) ∧
      (∀ p ∈ calculateEmission net, 0 ≤ p.2 ∧ p.2 ≤ 1) ∧
      (0 < emissionTotal net →
        ((calculateEmission net).map (fun p => p.2)).sum = 1) ∧
      (emissionTotal net = 0 → ∀ p ∈ calculateEmission net, p.2 = 0) := by
  have hq := emissionPairs_nonneg net h
  refine ⟨?_, ?_, ?_, ?_⟩
  · simp [calculateEmission, emissionPairs, List.map_map, Function.comp]
  · intro p hp
    obtain ⟨q, hqmem, rfl⟩ := List.mem_map.1 hp
    by_cases h0 : emissionTotal net = 0
    · simp [h0]
    · have htot : 0 < emissionTotal net := by
        rcases lt_or_eq_of_le (List.sum_nonneg (by
          intro x hx
          obtain ⟨r, hr, rfl⟩ := List.mem_map.1 hx
          exact hq r hr)) with h1 | h1
        · exact h1
        · exact absurd h1.symm h0
      have hle : q.2 ≤ emissionTotal net :=
        List.single_le_sum (by
          intro x hx
          obtain ⟨r, hr, rfl⟩ := List.mem_map.1 hx
          exact hq r hr) _ (List.mem_map_of_mem (fun p => p.2) hqmem)
      constructor
      · simp only [if_neg h0]
        exact div_nonneg (hq q hqmem) (le_of_lt htot)
      · simp only [if_neg h0]
        exact div_le_one_of_le₀ hle (le_of_lt htot)
  · intro htot
    have h0 : emissionTotal net ≠ 0 := ne_of_gt htot
    have hrw : ((calculateEmission net).map (fun p => p.2)).sum =
        ((emissionPairs net).map
          (fun q => (fun p : ℤ × ℚ => p.2) q / emissionTotal net)).sum := by
      simp [calculateEmission, List.map_map, Function.comp_def, if_neg h0]
    rw [hrw, sum_map_div]
    exact div_self h0
  · intro h0 p hp
    obtain ⟨q, _, rfl⟩ := List.mem_map.1 hp
    simp [h0]

/-- Concrete network for the C10 witness: two non-root pools with
`tao_in = 500` and `tao_in = 1500` (the spec scenario yielding shares
`0.25` and `0.75`). -/
def netW10 : Subtensor :=
  { subnets := [mkSubnet 0 0 0 0 true, mkSubnet 1 500 500 0 false,
      mkSubnet 2 1500 1500 0 false],
    accounts := [], tao_supply := 0, global_split := 0, balanced := false,
    initial_root_weight := 0, root_weight := 0, blocks := 1, log_interval := 1 }

/-- C10 witness: on `netW10` the emission shares are keyed by the two
non-root pools and sum to `1`. -/
theorem emission_shares_spec_witness :
    0 < emissionTotal netW10 ∧
      (calculateEmission netW10).map (fun p => p.1) =
          (nonRootSubnets netW10).map (fun s => s.id) ∧
        ((calculateEmission netW10).map (fun p => p.2)).sum = 1 :=
  ⟨by norm_num [emissionTotal, emissionPairs, nonRootSubnets, netW10, mkSubnet],
    (emission_shares_spec netW10 (by
      intro s hs _
      fin_cases hs <;> norm_num [mkSubnet])).1,
    (emission_shares_spec netW10 (by
      intro s hs _
      fin_cases hs <;> norm_num [mkSubnet])).2.2.1
      (by norm_num [emissionTotal, emissionPairs, nonRootSubnets, netW10, mkSubnet])⟩

/-! ## Weights and dividends
(`Subtensor._calculate_weights`, `Subtensor._calculate_dividends`) -/

/-- Embeds `_calculate_weights` entry for one account.  The source builds a
`defaultdict` keyed by account id (`self.accounts` is a dict, so ids are
distinct), accumulating
`subnet.weight(alpha * root_weight if subnet.is_root else alpha)` over every
subnet the account holds a stake key for; per account that accumulation is
this sum over the subnet list. -/
def globalWeightAcc (subnets : List Subnet) (rootw : ℚ) (acc : Account) : ℚ :=
  (subnets.map (fun s =>
    if alHasKey acc.alpha_stakes s.id then
      s.weight (if s.is_root then alGetD acc.alpha_stakes s.id 0 * rootw
                else alGetD acc.alpha_stakes s.id 0)
    else 0)).sum

/-- Embeds `local_weights` entry of `_calculate_dividends` for one account:
`subnet.weight(stake)` when the account has a stake key for the subnet;
accounts without the key are absent from the dict, so
`local_weights.get(acc_id, 0.0)` yields `0` for them. -/
def localWeight (s : Subnet) (acc : Account) : ℚ :=
  if alHasKey acc.alpha_stakes s.id then s.weight (alGetD acc.alpha_stakes s.id 0)
  else 0

/-- Embeds `total_global = sum(weights.values())`. -/
def totalGlobal (net : Subtensor) : ℚ :=
  (net.accounts.map (globalWeightAcc net.subnets net.root_weight)).sum

/-- Embeds `total_local = sum(local_weights.values())`. -/
def totalLocal (net : Subtensor) (s : Subnet) : ℚ :=
  (net.accounts.map (localWeight s)).sum

/-- Embeds `Subtensor._calculate_dividends`: the dict of per-account dividend
shares for `subnet_id`, `{}` when the subnet id is unknown.  Either
normalized term is `0` when its total is falsy (`0`). -/
def calculateDividends (net : Subtensor) (subnet_id : ℤ) : StakeMap :=
  match net.subnets.find? (fun t => t.id == subnet_id) with
  | none => []
  | some s =>
      net.accounts.map (fun acc =>
        (acc.id,
          net.global_split *
              (if totalGlobal net = 0 then 0
               else globalWeightAcc net.subnets net.root_weight acc / totalGlobal net) +
            (1 - net.global_split) *
              (if totalLocal net s = 0 then 0
               else localWeight s acc / totalLocal net s)))

/-- Root pool shared by the concrete dividend networks. -/
def rootC4 : Subnet := mkSubnet 0 0 0 0 true

/-- Non-root pool with no stakers (its local total is `0`). -/
def poolC4 : Subnet := mkSubnet 1 1 1 0 false

/-- An account staked only in the root pool. -/
def accC4 : Account :=
  { id := 1, free_balance := 100, registered_subnets := [0],
    alpha_stakes := [(0, 10)] }

/-- Network where pool 1 has a positive global total but a zero local
total. -/
def netC4 : Subtensor :=
  { subnets := [rootC4, poolC4], accounts := [accC4], tao_supply := 0,
    global_split := 1/2, balanced := true, initial_root_weight := 1,
    root_weight := 1, blocks := 100, log_interval := 10 }

/-- C4 counterexample: on `netC4` the global denominator is positive (so "at
least one of the two denominators is positive" holds) yet the dividend
shares for pool 1 sum to `1/2`, not `1`: the two normalized terms degrade
independently, so one zero denominator already breaks the claimed total. -/
theorem dividend_sum_counterexample :
    0 < totalGlobal netC4 ∧
      ((calculateDividends netC4 1).map (fun p => p.2)).sum ≠ 1 := by
  have hf : netC4.subnets.find? (fun t => t.id == (1:ℤ)) = some poolC4 := rfl
  have hgw : globalWeightAcc netC4.subnets netC4.root_weight accC4 = 10 := by
    norm_num [globalWeightAcc, netC4, rootC4, poolC4, accC4, alHasKey, alGetD,
      Subnet.weight, mkSubnet]
  have hTG : totalGlobal netC4 = 10 := by
    simp [totalGlobal, netC4]
    rw [show netC4.subnets = [rootC4, poolC4] from rfl,
      show netC4.root_weight = 1 from rfl] at hgw
    simpa [accC4] using hgw
  have hTL : totalLocal netC4 poolC4 = 0 := by
    norm_num [totalLocal, localWeight, netC4, poolC4, accC4, alHasKey,
      Subnet.weight, mkSubnet]
  constructor
  · rw [hTG]; norm_num
  · simp only [calculateDividends, hf, hTG, hTL]
    rw [show netC4.accounts = [accC4] from rfl]
    rw [show netC4.subnets = [rootC4, poolC4] from rfl,
      show netC4.root_weight = 1 from rfl] at hgw
    simp [hgw, netC4]

/-- C4 (amended).  Dividend-share normalization: the shares returned by
`_calculate_dividends` for an existing pool sum to exactly `1` provided
both denominators — the total global weight and the pool's total local
weight — are positive. -/
theorem dividend_shares_sum_one (net : Subtensor) (sid : ℤ) (s : Subnet)
    (hfind : net.subnets.find? (fun t => t.id == sid) = some s)
    (hTG : 0 < totalGlobal net) (hTL : 0 < totalLocal net s) :
    ((calculateDividends net sid).map (fun p => p.2)).sum = 1 := by
  have hTG0 : totalGlobal net ≠ 0 := ne_of_gt hTG
  have hTL0 : totalLocal net s ≠ 0 := ne_of_gt hTL
  have hrw : ((calculateDividends net sid).map (fun p => p.2)).sum =
      (net.accounts.map (fun acc =>
        net.global_split *
            (globalWeightAcc net.subnets net.root_weight acc / totalGlobal net) +
          (1 - net.global_split) * (localWeight s acc / totalLocal net s))).sum := by
    simp [calculateDividends, hfind, List.map_map, Function.comp_def,
      if_neg hTG0, if_neg hTL0]
  rw [hrw, sum_map_add]
  rw [show (net.accounts.map (fun acc =>
      net.global_split *
        (globalWeightAcc net.subnets net.root_weight acc / totalGlobal net))) =
    net.accounts.map (fun acc => net.global_split *
      ((fun a => globalWeightAcc net.subnets net.root_weight a / totalGlobal net) acc))
    from rfl, List.sum_map_mul_left]
  rw [show (net.accounts.map (fun acc =>
      (1 - net.global_split) * (localWeight s acc / totalLocal net s))) =
    net.accounts.map (fun acc => (1 - net.global_split) *
      ((fun a => localWeight s a / totalLocal net s) acc))
    from rfl, List.sum_map_mul_left]
  rw [show (net.accounts.map
      (fun a => globalWeightAcc net.subnets net.root_weight a / totalGlobal net)) =
    net.accounts.map
      (fun a => globalWeightAcc net.subnets net.root_weight a / totalGlobal net)
    from rfl, sum_map_div]
  rw [show (net.accounts.map (fun a => localWeight s a / totalLocal net s)) =
    net.accounts.map (fun a => localWeight s a / totalLocal net s)
    from rfl, sum_map_div]
  have h1 : (net.accounts.map
      (fun a => globalWeightAcc net.subnets net.root_weight a)).sum =
      totalGlobal net := rfl
  have h2 : (net.accounts.map (fun a => localWeight s a)).sum =
      totalLocal net s := rfl
  rw [h1, h2, div_self hTG0, div_self hTL0]
  ring

/-- Non-root pool with a staker for the C4 witness. -/
def poolC4w : Subnet := mkSubnet 1 1 1 1 false

/-- An account staked in pool 1 for the C4 witness. -/
def accC4w : Account :=
  { id := 2, free_balance := 0, registered_subnets := [1],
    alpha_stakes := [(1, 1)] }

/-- Network where both dividend denominators for pool 1 are positive. -/
def netC4w : Subtensor :=
  { subnets := [rootC4, poolC4w], accounts := [accC4, accC4w], tao_supply := 0,
    global_split := 1/2, balanced := true, initial_root_weight := 1,
    root_weight := 1, blocks := 100, log_interval := 10 }

/-- C4 witness: on `netC4w` both denominators are positive and the shares
for pool 1 sum to `1`. -/
theorem dividend_shares_sum_one_witness :
    netC4w.subnets.find? (fun t => t.id == 1) = some poolC4w ∧
      0 < totalGlobal netC4w ∧ 0 < totalLocal netC4w poolC4w ∧
      ((calculateDividends netC4w 1).map (fun p => p.2)).sum = 1 :=
  ⟨rfl,
    by norm_num [totalGlobal, globalWeightAcc, netC4w, rootC4, poolC4w, accC4,
      accC4w, alHasKey, alGetD, Subnet.weight, mkSubnet],
    by norm_num [totalLocal, localWeight, netC4w, rootC4, poolC4w, accC4,
      accC4w, alHasKey, alGetD, Subnet.weight, mkSubnet],
    dividend_shares_sum_one netC4w 1 poolC4w rfl
      (by norm_num [totalGlobal, globalWeightAcc, netC4w, rootC4, poolC4w,
        accC4, accC4w, alHasKey, alGetD, Subnet.weight, mkSubnet])
      (by norm_num [totalLocal, localWeight, netC4w, rootC4, poolC4w, accC4,
        accC4w, alHasKey, alGetD, Subnet.weight, mkSubnet])⟩

/-! ## The per-block step (`Subtensor._process_block_step`) -/

/-- Embeds `Subtensor._update_root_weight`: sets
`root_weight = max(0, initial_root_weight - current_block *
(initial_root_weight / blocks))`.  The method is defined in the source but —
as `block_step_preserves_root_weight` records — never invoked by
`_process_block_step` or any other code. -/
def updateRootWeight (net : Subtensor) (current_block : ℤ) : Subtensor :=
  let weight_decrease_per_block := net.initial_root_weight / (net.blocks : ℚ)
  let new_weight :=
    max 0 (net.initial_root_weight - current_block * weight_decrease_per_block)
  { net with root_weight := new_weight }

/-- Embeds `sum(s.alpha_price() for s in self.subnets.values() if not s.is_root)`. -/
def sumPrices (net : Subtensor) : ℚ :=
  ((nonRootSubnets net).map Subnet.alpha_price).sum

/-- The dividend-accrual loop of `_process_block_step` for one subnet:
`for acc_id, div in dividends.items(): if subnet.id in ...registered_subnets:
...alpha_stakes[subnet.id] = ...alpha_stakes.get(subnet.id, 0.0) + div *
emission_val` (with `emission_val = 1`). -/
def applyDividends (sid : ℤ) (accounts : List Account) (divs : StakeMap) :
    List Account :=
  divs.foldl (fun accs d =>
    accs.map (fun acc =>
      if acc.id = d.1 ∧ sid ∈ acc.registered_subnets then
        let new_stakes :=
          alSet acc.alpha_stakes sid (alGetD acc.alpha_stakes sid 0 + d.2 * 1)
        { acc with alpha_stakes := new_stakes }
      else acc)) accounts

/-- One iteration of the subnet loop in `_process_block_step`: look up the
(unique) subnet with this id, skip it when root, otherwise compute
`tao_amount` and `alpha_amount` from the up-front `emit`/`sum_prices`
snapshot, accrue dividends (computed from the current, pre-injection state)
and inject. -/
def processSubnetStep (emit : StakeMap) (sp : ℚ) (net : Subtensor) (sid : ℤ) :
    Subtensor :=
  match net.subnets.find? (fun t => t.id == sid) with
  | none => net
  | some s =>
      if s.is_root then net
      else
        { net with
          accounts := applyDividends s.id net.accounts (calculateDividends net s.id),
          subnets := net.subnets.map (fun t =>
            if t.id = s.id then
              s.inject
                (if sp < 1 ∨ net.balanced = false then alGetD emit s.id 0 * 1 else 0)
                (if 1 ≤ sp ∧ net.balanced = true then 1 else 0) 1
            else t) }

/-- Embeds `Subtensor._process_block_step` (the live code path, not the
commented-out three-band variant): emission shares and the price sum are
computed once up front, `tao_supply` grows by `emission_val = 1` when
`sum_prices < 1.0 or not balanced`, and the subnet dict is traversed in
order, mutating state as it goes. -/
def processBlockStep (net : Subtensor) : Subtensor :=
  let emit := calculateEmission net
  let sp := sumPrices net
  let net1 := if sp < 1 ∨ net.balanced = false then
      { net with tao_supply := net.tao_supply + 1 } else net
  (net.subnets.map (fun s => s.id)).foldl (processSubnetStep emit sp) net1

/-- The effect of one block-step on a single subnet: root subnets are
untouched; each non-root subnet is injected with
`tao_amount = emission_share * 1` when `sum_prices < 1.0 or not balanced`
(else `0`), `alpha_amount = 1` when `sum_prices >= 1.0 and balanced`
(else `0`), and `alpha_out_delta = 1` in every case. -/
def injectForBlock (emit : StakeMap) (sp : ℚ) (bal : Bool) (s : Subnet) :
    Subnet :=
  if s.is_root then s
  else
    s.inject (if sp < 1 ∨ bal = false then alGetD emit s.id 0 * 1 else 0)
      (if 1 ≤ sp ∧ bal = true then 1 else 0) 1

lemma processSubnetStep_scalars (emit : StakeMap) (sp : ℚ) (net : Subtensor)
    (sid : ℤ) :
    (processSubnetStep emit sp net sid).tao_supply = net.tao_supply ∧
      (processSubnetStep emit sp net sid).balanced = net.balanced ∧
      (processSubnetStep emit sp net sid).root_weight = net.root_weight := by
  rcases hf : net.subnets.find? (fun t => t.id == sid) with _ | s
  · simp [processSubnetStep, hf]
  · by_cases hr : s.is_root = true <;> simp [processSubnetStep, hf, hr]

lemma foldl_step_scalars (emit : StakeMap) (sp : ℚ) (ids : List ℤ) :
    ∀ net : Subtensor,
      ((ids.foldl (processSubnetStep emit sp) net).tao_supply = net.tao_supply ∧
        (ids.foldl (processSubnetStep emit sp) net).balanced = net.balanced ∧
        (ids.foldl (processSubnetStep emit sp) net).root_weight = net.root_weight) := by
  induction ids with
  | nil => intro net; exact ⟨rfl, rfl, rfl⟩
  | cons a ids ih =>
      intro net
      have h1 := processSubnetStep_scalars emit sp net a
      have h2 := ih (processSubnetStep emit sp net a)
      simp only [List.foldl_cons]
      exact ⟨h2.1.trans h1.1, h2.2.1.trans h1.2.1, h2.2.2.trans h1.2.2⟩

/-- C2.  The per-block state transition `_process_block_step` never updates
`root_weight`: the decayed value claimed by the spec is computed only by
`_update_root_weight`, which exists with exactly the claimed formula but is
never called, so `root_weight` stays at its initial value for the whole run
instead of strictly decreasing. -/
theorem block_step_preserves_root_weight :
    (∀ net : Subtensor, (processBlockStep net).root_weight = net.root_weight) ∧
      (∀ (net : Subtensor) (b : ℤ),
        (updateRootWeight net b).root_weight =
          max 0 (net.initial_root_weight -
            b * (net.initial_root_weight / (net.blocks : ℚ)))) := by
  constructor
  · intro net
    have h := (foldl_step_scalars (calculateEmission net) (sumPrices net)
      (net.subnets.map (fun s => s.id))
      (if sumPrices net < 1 ∨ net.balanced = false then
        { net with tao_supply := net.tao_supply + 1 } else net)).2.2
    simp only [processBlockStep]
    rw [h]
    by_cases hc : sumPrices net < 1 ∨ net.balanced = false <;> simp [hc]
  · intro net b
    rfl

lemma processSubnetStep_subnet_ids (emit : StakeMap) (sp : ℚ) (net : Subtensor)
    (sid : ℤ) :
    (processSubnetStep emit sp net sid).subnets.map (fun s => s.id) =
      net.subnets.map (fun s => s.id) := by
  rcases hf : net.subnets.find? (fun t => t.id == sid) with _ | s
  · simp [processSubnetStep, hf]
  · by_cases hr : s.is_root = true
    · simp [processSubnetStep, hf, hr]
    · simp only [processSubnetStep, hf, hr, Bool.false_eq_true, if_false,
        List.map_map]
      apply List.map_congr_left
      intro t _
      by_cases hts : t.id = s.id <;> simp [hts, Subnet.inject, Function.comp]

lemma find?_unique (l : List Subnet) (sid : ℤ) (s t : Subnet)
    (hnd : (l.map (fun u => u.id)).Nodup)
    (hf : l.find? (fun u => u.id == sid) = some s)
    (ht : t ∈ l) (hid : t.id = sid) : t = s := by
  have hs := List.mem_of_find?_eq_some hf
  have hsid : s.id = sid := by simpa using List.find?_some hf
  exact List.inj_on_of_nodup_map hnd ht hs (by rw [hid, hsid])

lemma foldl_step_subnets (emit : StakeMap) (sp : ℚ) (bal : Bool)
    (ids : List ℤ) :
    ∀ net : Subtensor, net.balanced = bal →
      (net.subnets.map (fun s => s.id)).Nodup → ids.Nodup →
      (ids.foldl (processSubnetStep emit sp) net).subnets =
        net.subnets.map (fun t =>
          if t.id ∈ ids then injectForBlock emit sp bal t else t) := by
  induction ids with
  | nil =>
      intro net _ _ _
      simp
  | cons a ids ih =>
      intro net hbal hnd hids
      have hda : a ∉ ids := (List.nodup_cons.1 hids).1
      have hids' : ids.Nodup := (List.nodup_cons.1 hids).2
      simp only [List.foldl_cons]
      rcases hf : net.subnets.find? (fun t => t.id == a) with _ | s
      · have hstep : processSubnetStep emit sp net a = net := by
          simp [processSubnetStep, hf]
        rw [hstep, ih net hbal hnd hids']
        apply List.map_congr_left
        intro t ht
        have hta : t.id ≠ a := by
          intro hta
          have := List.find?_eq_none.1 hf t ht
          simp [hta] at this
        simp [List.mem_cons, hta]
      · have hsid : s.id = a := by simpa using List.find?_some hf
        by_cases hr : s.is_root = true
        · have hstep : processSubnetStep emit sp net a = net := by
            simp [processSubnetStep, hf, hr]
          rw [hstep, ih net hbal hnd hids']
          apply List.map_congr_left
          intro t ht
          by_cases hta : t.id = a
          · have hts : t = s := find?_unique net.subnets a s t hnd hf ht hta
            simp [List.mem_cons, hta, hda, injectForBlock, hts, hr]
          · simp [List.mem_cons, hta]
        · set netA := processSubnetStep emit sp net a with hnetA
          have hsubA : netA.subnets = net.subnets.map (fun t =>
              if t.id = s.id then
                s.inject
                  (if sp < 1 ∨ net.balanced = false then alGetD emit s.id 0 * 1 else 0)
                  (if 1 ≤ sp ∧ net.balanced = true then 1 else 0) 1
              else t) := by
            simp [hnetA, processSubnetStep, hf, hr]
          have hbalA : netA.balanced = bal := by
            rw [(processSubnetStep_scalars emit sp net a).2.1, hbal]
          have hndA : (netA.subnets.map (fun u => u.id)).Nodup := by
            rw [processSubnetStep_subnet_ids]; exact hnd
          rw [ih netA hbalA hndA hids', hsubA, List.map_map]
          apply List.map_congr_left
          intro t ht
          simp only [Function.comp]
          by_cases hta : t.id = a
          · have hts : t = s := find?_unique net.subnets a s t hnd hf ht hta
            have h1 : ¬((s.inject
                (if sp < 1 ∨ net.balanced = false then alGetD emit s.id 0 * 1 else 0)
                (if 1 ≤ sp ∧ net.balanced = true then 1 else 0) 1).id ∈ ids) := by
              show ¬(s.id ∈ ids)
              rw [hsid]; exact hda
            rw [if_pos (hta.trans hsid.symm), if_neg h1,
              if_pos (show t.id ∈ a :: ids from List.mem_cons.2 (Or.inl hta)),
              hts, ← hbal]
            simp [injectForBlock, hr]
          · have hts' : ¬t.id = s.id := fun h => hta (h.trans hsid)
            rw [if_neg hts']
            by_cases htm : t.id ∈ ids
            · rw [if_pos htm, if_pos (List.mem_cons.2 (Or.inr htm))]
            · rw [if_neg htm, if_neg (by simp [List.mem_cons, hta, htm])]

/-- C5.  Supply growth and injection policy of one block-step (with
`emission_val = 1` and `sum_prices` the price sum at the start of the step):
if `sum_prices < 1.0 or not balanced` then `tao_supply` grows by exactly `1`
(so with `balanced = false` it grows by `1` regardless of `sum_prices`),
otherwise it is unchanged; and every subnet is transformed by
`injectForBlock` — root pools untouched, each non-root pool injected with
`tao_amount = emission_share * 1, alpha_amount = 0` in the first case,
`tao_amount = 0, alpha_amount = 1` in the second, and `alpha_out_delta = 1`
always. -/
theorem block_step_injection_policy (net : Subtensor)
    (hnd : (net.subnets.map (fun s => s.id)).Nodup) :
    ((processBlockStep net).tao_supply =
        if sumPrices net < 1 ∨ net.balanced = false then net.tao_supply + 1
        else net.tao_supply) ∧
      (net.balanced = false →
        (processBlockStep net).tao_supply = net.tao_supply + 1) ∧
      (processBlockStep net).subnets =
        net.subnets.map
          (injectForBlock (calculateEmission net) (sumPrices net) net.balanced) := by
  have hsupply : (processBlockStep net).tao_supply =
      if sumPrices net < 1 ∨ net.balanced = false then net.tao_supply + 1
      else net.tao_supply := by
    simp only [processBlockStep]
    rw [(foldl_step_scalars (calculateEmission net) (sumPrices net)
      (net.subnets.map (fun s => s.id)) _).1]
    by_cases hc : sumPrices net < 1 ∨ net.balanced = false <;> simp [hc]
  refine ⟨hsupply, ?_, ?_⟩
  · intro hb
    rw [hsupply, if_pos (Or.inr hb)]
  · simp only [processBlockStep]
    by_cases hc : sumPrices net < 1 ∨ net.balanced = false
    · rw [if_pos hc]
      rw [foldl_step_subnets (calculateEmission net) (sumPrices net)
        net.balanced (net.subnets.map (fun s => s.id))
        { net with tao_supply := net.tao_supply + 1 } rfl hnd hnd]
      apply List.map_congr_left
      intro t ht
      rw [if_pos (List.mem_map_of_mem (fun s => s.id) ht)]
    · rw [if_neg hc]
      rw [foldl_step_subnets (calculateEmission net) (sumPrices net)
        net.balanced (net.subnets.map (fun s => s.id)) net rfl hnd hnd]
      apply List.map_congr_left
      intro t ht
      rw [if_pos (List.mem_map_of_mem (fun s => s.id) ht)]

/-- Staker account for the C5 witness network. -/
def accW5 : Account :=
  { id := 1, free_balance := 10, registered_subnets := [1],
    alpha_stakes := [(1, 1)] }

/-- Concrete network for the C5 witness: one root pool and one non-root pool
with one registered staker, `balanced = false`. -/
def netW5 : Subtensor :=
  { subnets := [mkSubnet 0 0 0 0 true, mkSubnet 1 1 1 1 false],
    accounts := [accW5],
    tao_supply := 7, global_split := 1/2, balanced := false,
    initial_root_weight := 1, root_weight := 1, blocks := 10, log_interval := 1 }

/-- C5 witness: on `netW5` (distinct subnet ids) the block-step obeys the
injection policy and grows the supply by exactly `1`. -/
theorem block_step_injection_policy_witness :
    (netW5.subnets.map (fun s => s.id)).Nodup ∧
      ((processBlockStep netW5).tao_supply =
          if sumPrices netW5 < 1 ∨ netW5.balanced = false then netW5.tao_supply + 1
          else netW5.tao_supply) ∧
        (netW5.balanced = false →
          (processBlockStep netW5).tao_supply = netW5.tao_supply + 1) ∧
        (processBlockStep netW5).subnets =
          netW5.subnets.map
            (injectForBlock (calculateEmission netW5) (sumPrices netW5)
              netW5.balanced) :=
  ⟨by rw [show netW5.subnets.map (fun s => s.id) = [0, 1] from rfl]; decide,
    block_step_injection_policy netW5
      (by rw [show netW5.subnets.map (fun s => s.id) = [0, 1] from rfl]; decide)⟩

/-! ## Frame property of the block-step on accounts -/

/-- Frame relation between an account before and after (part of) a
block-step: id, free balance and registration list are unchanged, and the
stake entry for any subnet id the account is not registered for is
unchanged. -/
def accFrame (a b : Account) : Prop :=
  b.id = a.id ∧ b.free_balance = a.free_balance ∧
    b.registered_subnets = a.registered_subnets ∧
    ∀ j : ℤ, j ∉ a.registered_subnets →
      alGetD b.alpha_stakes j 0 = alGetD a.alpha_stakes j 0

lemma accFrame_refl (a : Account) : accFrame a a :=
  ⟨rfl, rfl, rfl, fun _ _ => rfl⟩

lemma accFrame_trans {a b c : Account} (h1 : accFrame a b) (h2 : accFrame b c) :
    accFrame a c := by
  obtain ⟨i1, f1, r1, s1⟩ := h1
  obtain ⟨i2, f2, r2, s2⟩ := h2
  refine ⟨i2.trans i1, f2.trans f1, r2.trans r1, fun j hj => ?_⟩
  have hj' : j ∉ b.registered_subnets := by rw [r1]; exact hj
  exact (s2 j hj').trans (s1 j hj)

lemma forall2_accFrame_refl (l : List Account) : List.Forall₂ accFrame l l :=
  List.forall₂_same.2 (fun x _ => accFrame_refl x)

lemma forall2_accFrame_trans :
    ∀ {l1 l2 l3 : List Account}, List.Forall₂ accFrame l1 l2 →
      List.Forall₂ accFrame l2 l3 → List.Forall₂ accFrame l1 l3 := by
  intro l1 l2 l3 h1
  induction h1 generalizing l3 with
  | nil =>
      intro h2
      cases h2
      exact List.Forall₂.nil
  | cons hab htl ih =>
      intro h2
      cases h2 with
      | cons hbc htl2 => exact List.Forall₂.cons (accFrame_trans hab hbc) (ih htl2)

lemma forall2_accFrame_map (l : List Account) (g : Account → Account)
    (h : ∀ x, accFrame x (g x)) : List.Forall₂ accFrame l (l.map g) := by
  induction l with
  | nil => exact List.Forall₂.nil
  | cons a l ih => exact List.Forall₂.cons (h a) ih

lemma alGetD_alSet_ne (l : StakeMap) (key j : ℤ) (v : ℚ) (hne : j ≠ key) :
    alGetD (alSet l key v) j 0 = alGetD l j 0 := by
  induction l with
  | nil =>
      simp only [alSet, alGetD]
      rw [if_neg (fun h => hne h.symm)]
  | cons p ps ih =>
      by_cases hp : p.1 = key
      · simp only [alSet, if_pos hp, alGetD]
        rw [if_neg (fun h => hne h.symm), if_neg (by rw [hp]; exact fun h => hne h.symm)]
      · simp only [alSet, if_neg hp, alGetD]
        by_cases hpj : p.1 = j
        · rw [if_pos hpj, if_pos hpj]
        · rw [if_neg hpj, if_neg hpj, ih]

lemma applyDividends_step_frame (sid : ℤ) (d : ℤ × ℚ) (acc : Account) :
    accFrame acc
      (if acc.id = d.1 ∧ sid ∈ acc.registered_subnets then
        let new_stakes :=
          alSet acc.alpha_stakes sid (alGetD acc.alpha_stakes sid 0 + d.2 * 1)
        { acc with alpha_stakes := new_stakes }
      else acc) := by
  by_cases hc : acc.id = d.1 ∧ sid ∈ acc.registered_subnets
  · rw [if_pos hc]
    refine ⟨rfl, rfl, rfl, fun j hj => ?_⟩
    have hne : j ≠ sid := fun h => hj (h ▸ hc.2)
    exact alGetD_alSet_ne acc.alpha_stakes sid j _ hne
  · rw [if_neg hc]
    exact accFrame_refl acc

lemma applyDividends_frame (sid : ℤ) (divs : StakeMap) :
    ∀ accounts : List Account,
      List.Forall₂ accFrame accounts (applyDividends sid accounts divs) := by
  induction divs with
  | nil => intro accounts; exact forall2_accFrame_refl accounts
  | cons d divs ih =>
      intro accounts
      have h1 := forall2_accFrame_map accounts _
        (fun acc => applyDividends_step_frame sid d acc)
      have h2 := ih (accounts.map (fun acc =>
        if acc.id = d.1 ∧ sid ∈ acc.registered_subnets then
          let new_stakes :=
            alSet acc.alpha_stakes sid (alGetD acc.alpha_stakes sid 0 + d.2 * 1)
          { acc with alpha_stakes := new_stakes }
        else acc))
      exact forall2_accFrame_trans h1 h2

lemma processSubnetStep_frame (emit : StakeMap) (sp : ℚ) (net : Subtensor)
    (sid : ℤ) :
    List.Forall₂ accFrame net.accounts (processSubnetStep emit sp net sid).accounts := by
  rcases hf : net.subnets.find? (fun t => t.id == sid) with _ | s
  · simp only [processSubnetStep, hf]
    exact forall2_accFrame_refl net.accounts
  · by_cases hr : s.is_root = true
    · simp only [processSubnetStep, hf, hr, if_true]
      exact forall2_accFrame_refl net.accounts
    · simp only [processSubnetStep, hf, hr, Bool.false_eq_true, if_false]
      exact applyDividends_frame s.id (calculateDividends net s.id) net.accounts

lemma foldl_step_frame (emit : StakeMap) (sp : ℚ) (ids : List ℤ) :
    ∀ net : Subtensor,
      List.Forall₂ accFrame net.accounts
        ((ids.foldl (processSubnetStep emit sp) net).accounts) := by
  induction ids with
  | nil => intro net; exact forall2_accFrame_refl net.accounts
  | cons a ids ih =>
      intro net
      simp only [List.foldl_cons]
      exact forall2_accFrame_trans (processSubnetStep_frame emit sp net a)
        (ih (processSubnetStep emit sp net a))

/-- C9.  Frame property of the block-step: `_process_block_step` never
changes any account's `id`, `free_balance` or `registered_subnets`, and the
stake entry of an account for any subnet id it is not registered for is also
unchanged — dividend accrual only touches `alpha_stakes` of registered
accounts (pool reserves and `tao_supply` being the other mutated state). -/
theorem block_step_account_frame (net : Subtensor) :
    List.Forall₂ accFrame net.accounts (processBlockStep net).accounts := by
  simp only [processBlockStep]
  have hinit : (if sumPrices net < 1 ∨ net.balanced = false then
      { net with tao_supply := net.tao_supply + 1 } else net).accounts =
      net.accounts := by
    by_cases hc : sumPrices net < 1 ∨ net.balanced = false <;> simp [hc]
  have h := foldl_step_frame (calculateEmission net) (sumPrices net)
    (net.subnets.map (fun s => s.id))
    (if sumPrices net < 1 ∨ net.balanced = false then
      { net with tao_supply := net.tao_supply + 1 } else net)
  rw [hinit] at h
  exact h

/-! ## Transaction execution (`Subtensor._execute_transaction`) -/

/-- Embeds `Subtensor._execute_transaction`: look up account and subnet (silently a
no-op when either is missing — `if not account or not subnet: return`), then
run the stake or unstake path, updating the matching account and subnet (dict
entries, hence unique ids).  Actions other than `'stake'`/`'unstake'` do
nothing.  No guard checks the amounts against the pool reserves or the
account's recorded stake. -/
def executeTransaction (net : Subtensor) (tx : Transaction) : Subtensor :=
  match net.accounts.find? (fun a => a.id == tx.account_id),
      net.subnets.find? (fun s => s.id == tx.subnet_id) with
  | some account, some subnet =>
      if tx.action = "stake" then
        let tao_amount := parseAmount tx.amount account.free_balance
        let res := subnet.stake tao_amount
        { net with
          subnets := net.subnets.map (fun s =>
            if s.id = tx.subnet_id then res.1 else s),
          accounts := net.accounts.map (fun a =>
            if a.id = tx.account_id then
              let new_stakes := alSet a.alpha_stakes tx.subnet_id
                (alGetD a.alpha_stakes tx.subnet_id 0 + res.2)
              { a with alpha_stakes := new_stakes,
                       free_balance := a.free_balance - tao_amount }
            else a) }
      else if tx.action = "unstake" then
        let alpha_amount := parseAmount tx.amount
          (alGetD account.alpha_stakes tx.subnet_id 0)
        let res := subnet.unstake alpha_amount
        { net with
          subnets := net.subnets.map (fun s =>
            if s.id = tx.subnet_id then res.1 else s),
          accounts := net.accounts.map (fun a =>
            if a.id = tx.account_id then
              let new_stakes := alSet a.alpha_stakes tx.subnet_id
                (alGetD a.alpha_stakes tx.subnet_id 0 - alpha_amount)
              { a with alpha_stakes := new_stakes,
                       free_balance := a.free_balance + res.2 }
            else a) }
      else net
  | _, _ => net

/-- C7.  Unknown-reference no-op: a transaction whose `account_id` or
`subnet_id` is not present leaves the whole network state — every pool,
every participant and all network-level scalars — unchanged. -/
theorem unknown_reference_noop (net : Subtensor) (tx : Transaction)
    (h : net.accounts.find? (fun a => a.id == tx.account_id) = none ∨
      net.subnets.find? (fun s => s.id == tx.subnet_id) = none) :
    executeTransaction net tx = net := by
  rcases h with h | h
  · rcases hs : net.subnets.find? (fun s => s.id == tx.subnet_id) with _ | s <;>
      simp [executeTransaction, h, hs]
  · rcases ha : net.accounts.find? (fun a => a.id == tx.account_id) with _ | a <;>
      simp [executeTransaction, h, ha]

/-- Network for the C7 witness. -/
def netW7 : Subtensor :=
  { subnets := [mkSubnet 0 0 0 0 true], accounts := [], tao_supply := 0,
    global_split := 0, balanced := false, initial_root_weight := 0,
    root_weight := 0, blocks := 1, log_interval := 1 }

/-- Transaction with an unknown account id for the C7 witness. -/
def txW7 : Transaction :=
  { block := 0, account_id := 5, subnet_id := 0, action := "stake",
    amount := TxAmount.lit 1 }

/-- C7 witness: `txW7` names account id `5`, which `netW7` does not have,
and executing it returns the network unchanged. -/
theorem unknown_reference_noop_witness :
    netW7.accounts.find? (fun a => a.id == txW7.account_id) = none ∧
      executeTransaction netW7 txW7 = netW7 :=
  ⟨rfl, unknown_reference_noop netW7 txW7 (Or.inl rfl)⟩

/-- Non-root pool with `alpha_out = 1` for the C6 overdraw input. -/
def poolC6 : Subnet := mkSubnet 1 1 1 1 false

/-- Account holding `1` alpha of pool 1 for the C6 overdraw input. -/
def accC6 : Account :=
  { id := 1, free_balance := 0, registered_subnets := [],
    alpha_stakes := [(1, 1)] }

/-- Network for the C6 overdraw input. -/
def netC6 : Subtensor :=
  { subnets := [poolC6], accounts := [accC6], tao_supply := 0,
    global_split := 0, balanced := false, initial_root_weight := 0,
    root_weight := 0, blocks := 1, log_interval := 1 }

/-- Unstake of `2` alpha against a recorded stake of `1`. -/
def txC6 : Transaction :=
  { block := 0, account_id := 1, subnet_id := 1, action := "unstake",
    amount := TxAmount.lit 2 }

/-- Zero-reserve (`alpha_in = 0`, hence `k = 0`) non-root pool. -/
def poolC6b : Subnet := mkSubnet 1 1 0 0 false

/-- Account with free balance `10` for the zero-reserve stake input. -/
def accC6b : Account :=
  { id := 1, free_balance := 10, registered_subnets := [], alpha_stakes := [] }

/-- Network for the C6 zero-reserve stake input. -/
def netC6b : Subtensor :=
  { subnets := [poolC6b], accounts := [accC6b], tao_supply := 0,
    global_split := 0, balanced := false, initial_root_weight := 0,
    root_weight := 0, blocks := 1, log_interval := 1 }

/-- Stake of `5` tao into the zero-reserve pool. -/
def txC6b : Transaction :=
  { block := 0, account_id := 1, subnet_id := 1, action := "stake",
    amount := TxAmount.lit 5 }

/-- C6.  The engine executes both numeric-guard violations unguarded:
unstaking `2` against a recorded stake of `1` drives the account's stake to
`-1` and the pool's outstanding alpha to `-1` (negative state, silently),
and staking `5` tao into a zero-reserve pool moves the tao into the pool and
deducts the balance while minting `0` alpha (state changed, not rejected). -/
theorem numeric_guard_violation :
    ((executeTransaction netC6 txC6).accounts.map
        (fun a => alGetD a.alpha_stakes 1 0) = [-1] ∧
      (executeTransaction netC6 txC6).subnets.map
        (fun s => s.alpha_out) = [-1]) ∧
      ((executeTransaction netC6b txC6b).subnets.map (fun s => s.tao_in) = [6] ∧
        (executeTransaction netC6b txC6b).subnets.map (fun s => s.alpha_in) = [0] ∧
        (executeTransaction netC6b txC6b).accounts.map
          (fun a => a.free_balance) = [5] ∧
        (executeTransaction netC6b txC6b).accounts.map
          (fun a => alGetD a.alpha_stakes 1 0) = [0]) := by
  have ha : netC6.accounts.find? (fun a => a.id == txC6.account_id) =
      some accC6 := rfl
  have hs : netC6.subnets.find? (fun s => s.id == txC6.subnet_id) =
      some poolC6 := rfl
  have hab : netC6b.accounts.find? (fun a => a.id == txC6b.account_id) =
      some accC6b := rfl
  have hsb : netC6b.subnets.find? (fun s => s.id == txC6b.subnet_id) =
      some poolC6b := rfl
  refine ⟨⟨?_, ?_⟩, ?_, ?_, ?_, ?_⟩ <;>
    (norm_num [executeTransaction, ha, hs, hab, hsb, netC6, netC6b, poolC6,
      poolC6b, accC6, accC6b, txC6, txC6b, parseAmount, Subnet.stake,
      Subnet.unstake, alGetD, alSet, mkSubnet]
     try simp [alGetD])

/-! ## Construction (`Subtensor.__init__`) -/

/-- Truncation toward zero, the behavior of Python's `int()` on a float. -/
def pytrunc (q : ℚ) : ℤ := if 0 ≤ q then ⌊q⌋ else -⌊-q⌋

/-- Embeds `Subtensor.__init__` (restricted to the fields the claims concern; the
transaction schedule and `injection_range` are not modelled).  The only
failure in the source is the `ZeroDivisionError` raised by
`int(blocks/n_steps)` when `n_steps == 0`; there is no validation of
`blocks`.  `int(...)` truncates the quotient toward zero (exact over `ℚ`
here; the source divides floats). -/
def subtensorInit (subnets : List Subnet) (accounts : List Account)
    (tao_supply global_split : ℚ) (balanced : Bool) (root_weight : ℚ)
    (blocks n_steps : ℤ) : Option Subtensor :=
  if n_steps = 0 then none
  else some
    { subnets := subnets, accounts := accounts, tao_supply := tao_supply,
      global_split := global_split, balanced := balanced,
      initial_root_weight := root_weight, root_weight := root_weight,
      blocks := blocks, log_interval := pytrunc ((blocks : ℚ) / (n_steps : ℚ)) }

/-- C8 counterexample: constructing with `total_blocks = 0` or
`total_blocks = -5` (and `n_steps = 1`) succeeds, contradicting the claim
that construction fails whenever `total_blocks <= 0`. -/
theorem init_nonpositive_blocks_succeeds :
    (subtensorInit [] [] 0 0 false 0 0 1).isSome = true ∧
      (subtensorInit [] [] 0 0 false 0 (-5) 1).isSome = true :=
  ⟨rfl, rfl⟩

/-- C8 (amended).  Construction fails exactly when `n_steps = 0` (the
division `blocks/n_steps` raises); for every other input — including
`total_blocks <= 0` — it succeeds, storing `log_interval =
int(blocks/n_steps)` (truncation toward zero), which for positive `blocks`
and `n_steps` is the integer quotient `⌊blocks/n_steps⌋`. -/
theorem init_validation (subnets : List Subnet) (accounts : List Account)
    (ts gs : ℚ) (b : Bool) (rw0 : ℚ) (blocks n_steps : ℤ) :
    (n_steps = 0 →
        subtensorInit subnets accounts ts gs b rw0 blocks n_steps = none) ∧
      (n_steps ≠ 0 →
        (subtensorInit subnets accounts ts gs b rw0 blocks n_steps).map
            (fun st => st.log_interval) =
          some (pytrunc ((blocks : ℚ) / (n_steps : ℚ)))) ∧
      (0 < blocks → 0 < n_steps →
        (subtensorInit subnets accounts ts gs b rw0 blocks n_steps).map
            (fun st => st.log_interval) =
          some ⌊(blocks : ℚ) / (n_steps : ℚ)⌋) := by
  refine ⟨fun h => by simp [subtensorInit, h], fun h => by
    simp [subtensorInit, h], fun hb hn => ?_⟩
  have hn0 : n_steps ≠ 0 := ne_of_gt hn
  have hq : 0 ≤ (blocks : ℚ) / (n_steps : ℚ) := by
    apply div_nonneg
    · exact_mod_cast le_of_lt hb
    · exact_mod_cast le_of_lt hn
  simp [subtensorInit, hn0, pytrunc, if_pos hq]

/-- C8 witness: `blocks = 10`, `n_steps = 2` succeeds with
`log_interval = 5`, and `n_steps = 0` fails. -/
theorem init_validation_witness :
    ((0:ℤ) = 0 → subtensorInit [] [] 0 0 false 0 10 0 = none) ∧
      (0 < (10:ℤ) ∧ 0 < (2:ℤ)) ∧
      (subtensorInit [] [] 0 0 false 0 10 2).map (fun st => st.log_interval) =
        some ⌊((10:ℤ) : ℚ) / ((2:ℤ) : ℚ)⌋ :=
  ⟨(init_validation [] [] 0 0 false 0 10 0).1, ⟨by decide, by decide⟩,
    (init_validation [] [] 0 0 false 0 10 2).2.2 (by decide) (by decide)⟩

end TaoTrade
